import Mathlib

/-!
# Verification of `src/common/diffHunk.ts`

A shallow embedding of the unified-diff hunk parser and content
reconstructor of `diffHunk.ts`, together with proofs about it.

Text is modelled as `List Char`.  JavaScript numbers that can be `NaN`
are modelled by `JSNum`; numbers that are provably never `NaN` in the
source (loop counters, values parsed from the mandatory first digit
group of the header regex) are modelled as `Int`.  JavaScript `x | 0`
(ToInt32) is modelled exactly on integers; the float rounding that
JavaScript would apply to digit strings denoting values above 2^53
before ToInt32 is not modelled.
-/

set_option maxHeartbeats 1000000

namespace DiffHunkTS

/-- A JavaScript number that may be `NaN`.  In `diffHunk.ts` the only
source of `NaN` is `Number(undefined)` for an absent regex capture
group; all arithmetic performed on such a value keeps it `NaN`. -/
inductive JSNum where
  | nan : JSNum
  | int (v : Int) : JSNum
deriving DecidableEq

/-- `x + n` for a possibly-`NaN` JavaScript number `x` (`NaN + n = NaN`). -/
def JSNum.addInt : JSNum → Int → JSNum
  | .nan, _ => .nan
  | .int v, n => .int (v + n)

/-- JavaScript ToInt32 of an integer: wrap into `[-2^31, 2^31)`. -/
def toInt32 (v : Int) : Int :=
  let m := v % 4294967296
  if m < 2147483648 then m else m - 4294967296

/-- JavaScript `x | 0` for a possibly-`NaN` number: `NaN | 0 = 0`,
otherwise ToInt32. -/
def JSNum.orZero : JSNum → Int
  | .nan => 0
  | .int v => toInt32 v

/-- `enum DiffChangeType` from the source. -/
inductive DiffChangeType where
  | Context
  | Add
  | Delete
  | Control
deriving DecidableEq

/-- `class DiffLine` from the source.  `oldLineNumber` is an `Int`
because every value stored there is either `-1` or derived from the
mandatory first capture group of the header regex; `newLineNumber` can
be `NaN` (header with no ` +n` part), hence `JSNum`. -/
structure DiffLine where
  type : DiffChangeType
  oldLineNumber : Int
  newLineNumber : JSNum
  positionInHunk : Int
  raw : List Char
  endwithLineBreak : Bool := true
deriving DecidableEq

/-- `DiffLine.text`: the raw line with its one-character classification
prefix removed (`this._raw.substr(1)`). -/
def DiffLine.text (l : DiffLine) : List Char :=
  l.raw.drop 1

/-- `getDiffChangeType` from the source: classify by the first
character; `text[0]` of the empty line is `undefined` and falls to the
default case, `Control`. -/
def getDiffChangeType (text : List Char) : DiffChangeType :=
  match text with
  | [] => .Control
  | c :: _ =>
    if c = ' ' then .Context
    else if c = '+' then .Add
    else if c = '-' then .Delete
    else .Control

/-- `class DiffHunk` from the source. -/
structure DiffHunk where
  oldLineNumber : Int
  oldLength : Int
  newLineNumber : JSNum
  newLength : Int
  positionInHunk : Int
  diffLines : List DiffLine := []
deriving DecidableEq

/-- `countCarriageReturns` from the source: the number of literal
carriage-return characters in the line. -/
def countCarriageReturns (text : List Char) : Nat :=
  text.count '\r'

/-- Drop one trailing carriage return, as `LineReader` does on a
segment that is terminated by `'\n'` (`length--` when the character
before the `'\n'` is `'\r'`). -/
def stripTrailCR (seg : List Char) : List Char :=
  if seg.getLast? = some '\r' then seg.dropLast else seg

/-- The scanning loop of `LineReader`, accumulating the current
segment in reverse.  At a `'\n'` the accumulated segment is yielded
with one trailing `'\r'` stripped; at the end of text the pending
segment is yielded unstripped; a `'\n'` exactly at the end of text
yields no trailing empty line (the source loop stops once its cursor
reaches the end). -/
def lineReaderGo (acc : List Char) : List Char → List (List Char)
  | [] => [acc.reverse]
  | c :: rest =>
    if c = '\n' then
      stripTrailCR acc.reverse :: (if rest.isEmpty then [] else lineReaderGo [] rest)
    else lineReaderGo (c :: acc) rest

/-- `LineReader` from the source, materialised as a list of the yielded
lines.  Empty text yields no lines at all. -/
def lineReader (cs : List Char) : List (List Char) :=
  if cs.isEmpty then [] else lineReaderGo [] cs

/-! ## The hunk header regular expression

`DIFF_HUNK_HEADER = /@@ \-(\d+)(,(\d+))?( \+(\d+)(,(\d+)?)?)? @@/`.

The regex is embedded as a matcher over a suffix of the line
(`matchHeaderAt`), tried at every start position from the left
(`searchHeader`), as an unanchored JavaScript regex is.  Each optional
group is tried greedily and, when the rest of the pattern then fails,
skipped — exactly the regex engine's backtracking order.  Each `\d+`
is taken by maximal munch without further backtracking, which is exact
for this pattern: in every continuation of a digit group the next
pattern element is a literal `','`, `' '` or `'@'`, never a digit, so
a shorter digit match can never succeed where the maximal one fails. -/

/-- Maximal run of decimal digits (`\d+` by maximal munch): the digits
taken and the remaining suffix. -/
def takeDigits : List Char → List Char × List Char
  | [] => ([], [])
  | c :: cs =>
    if c.isDigit then (c :: (takeDigits cs).1, (takeDigits cs).2)
    else ([], c :: cs)

/-- Match a literal character sequence, returning the remaining
suffix. -/
def matchLit (pat cs : List Char) : Option (List Char) :=
  match pat, cs with
  | [], rest => some rest
  | _ :: _, [] => none
  | p :: ps, c :: rest => if c = p then matchLit ps rest else none

/-- The capture groups of `DIFF_HUNK_HEADER` that the source reads:
groups 1 (original start, mandatory), 3 (original length), 5 (new
start) and 7 (new length); an absent group is `none`. -/
structure HeaderGroups where
  g1 : List Char
  g3 : Option (List Char)
  g5 : Option (List Char)
  g7 : Option (List Char)
deriving DecidableEq

/-- The part `(,(\d+)?)? @@` of the regex after the new-start digits:
the resulting capture of group 7.  Alternatives in the regex engine's
backtracking order: a comma with greedily taken digits then `' @@'`,
the same comma with the optional digits matching empty then `' @@'`,
or no comma group at all and directly `' @@'`. -/
def matchNewComma (cs : List Char) : Option (Option (List Char)) :=
  ((do
      let cs₁ ← matchLit [','] cs
      let td := takeDigits cs₁
      ((matchLit [' ', '@', '@'] td.2).map fun _ =>
          if td.1.isEmpty then none else some td.1)
        <|>
      ((matchLit [' ', '@', '@'] cs₁).map fun _ => (none : Option (List Char))))
    <|>
    (matchLit [' ', '@', '@'] cs).map fun _ => none)

/-- The part `( \+(\d+)(,(\d+)?)?)? @@` of the regex: the resulting
captures of groups 5 and 7.  Either the new-side group `' +'` with its
digits and optional comma part, or no new-side group and directly
`' @@'`. -/
def matchNewPart (cs : List Char) : Option (Option (List Char) × Option (List Char)) :=
  (do
      let cs₁ ← matchLit [' ', '+'] cs
      let td := takeDigits cs₁
      if td.1.isEmpty then none
      else (matchNewComma td.2).map fun g7 => (some td.1, g7))
    <|>
  (matchLit [' ', '@', '@'] cs).map fun _ => (none, none)

/-- Attempt `DIFF_HUNK_HEADER` at the start of `cs`:
`@@ \-(\d+)` then the optional `(,(\d+))?` then the rest of the
pattern; arbitrary trailing text after the closing `' @@'` is
ignored. -/
def matchHeaderAt (cs : List Char) : Option HeaderGroups := do
  let cs₁ ← matchLit ['@', '@', ' ', '-'] cs
  let t1 := takeDigits cs₁
  if t1.1.isEmpty then none
  else
    (((do
        let cs₃ ← matchLit [','] t1.2
        let t3 := takeDigits cs₃
        if t3.1.isEmpty then none
        else (matchNewPart t3.2).map fun p => ⟨t1.1, some t3.1, p.1, p.2⟩)
      <|>
      (matchNewPart t1.2).map fun p => ⟨t1.1, none, p.1, p.2⟩))

/-- Unanchored regex search: try `matchHeaderAt` at every start
position, leftmost first (`RegExp.prototype.exec`). -/
def searchHeader : List Char → Option HeaderGroups
  | [] => none
  | c :: rest => matchHeaderAt (c :: rest) <|> searchHeader rest

/-- `DIFF_HUNK_HEADER.test(line)`. -/
def isHeaderLine (line : List Char) : Bool :=
  (searchHeader line).isSome

/-- The numeric value of a digit string (`Number` applied to a capture
group made of decimal digits). -/
def digitsVal (ds : List Char) : Nat :=
  ds.foldl (fun acc c => 10 * acc + (c.toNat - 48)) 0

/-- `Number(matches[k])` for an optional capture group: `NaN` when the
group is absent. -/
def jsNumOfGroup : Option (List Char) → JSNum
  | none => .nan
  | some ds => .int (digitsVal ds)

/-- The four values the source decodes from a header match:
`Number(matches[1])`, `Number(matches[3]) | 0`, `Number(matches[5])`,
`Number(matches[7]) | 0`. -/
def decodeHeader (g : HeaderGroups) : Int × Int × JSNum × Int :=
  ((digitsVal g.g1 : Int), (jsNumOfGroup g.g3).orZero, jsNumOfGroup g.g5,
    (jsNumOfGroup g.g7).orZero)

/-! ## The hunk builder (`parseDiffHunk`) -/

/-- Set `endwithLineBreak := false` on the last line of the open hunk,
as the builder does for a control marker line; the empty list is left
unchanged (`if (diffHunk.diffLines && diffHunk.diffLines.length)`). -/
def setLastNoBreak : List DiffLine → List DiffLine
  | [] => []
  | [l] => [{ l with endwithLineBreak := false }]
  | l :: ls => l :: setLastNoBreak ls

/-- The local state of `parseDiffHunk`'s scanning loop: the hunks
yielded so far (in order), the currently open hunk, and the three
counters `positionInHunk`, `oldLine`, `newLine`. -/
structure ParserState where
  hunks : List DiffHunk
  cur : Option DiffHunk
  positionInHunk : Int
  oldLine : Int
  newLine : JSNum
deriving DecidableEq

/-- The state at the top of `parseDiffHunk`:
`diffHunk = null; positionInHunk = -1; oldLine = -1; newLine = -1`. -/
def initialState : ParserState :=
  { hunks := [], cur := none, positionInHunk := -1, oldLine := -1, newLine := .int (-1) }

/-- The body of `parseDiffHunk`'s loop for one scanned line, before the
final `++positionInHunk`: on a header, yield any open hunk, start the
position counter if needed, reset the cursors and open a new hunk whose
first line is a synthetic `Control` line for the header text; otherwise,
if a hunk is open, classify the line and either flip the last line's
`endwithLineBreak` (control marker) or append one `DiffLine` and advance
the applicable cursors by `1 + countCarriageReturns line`. -/
def processLine (st : ParserState) (line : List Char) : ParserState :=
  match searchHeader line with
  | some g =>
    let pos := if st.positionInHunk = -1 then 0 else st.positionInHunk
    let dec := decodeHeader g
    let newHunk : DiffHunk :=
      { oldLineNumber := dec.1, oldLength := dec.2.1,
        newLineNumber := dec.2.2.1, newLength := dec.2.2.2,
        positionInHunk := pos,
        diffLines := [{ type := .Control, oldLineNumber := -1,
                        newLineNumber := .int (-1), positionInHunk := pos,
                        raw := line }] }
    { hunks := st.hunks ++ st.cur.toList, cur := some newHunk,
      positionInHunk := pos, oldLine := dec.1, newLine := dec.2.2.1 }
  | none =>
    match st.cur with
    | none => st
    | some hunk =>
      if getDiffChangeType line = .Control then
        { st with cur := some { hunk with diffLines := setLastNoBreak hunk.diffLines } }
      else
        let ty := getDiffChangeType line
        let dl : DiffLine :=
          { type := ty,
            oldLineNumber := if ty ≠ .Add then st.oldLine else -1,
            newLineNumber := if ty ≠ .Delete then st.newLine else .int (-1),
            positionInHunk := st.positionInHunk,
            raw := line }
        let st' := { st with cur := some { hunk with diffLines := hunk.diffLines ++ [dl] } }
        let n : Int := 1 + countCarriageReturns line
        match ty with
        | .Context => { st' with oldLine := st.oldLine + n, newLine := st.newLine.addInt n }
        | .Delete => { st' with oldLine := st.oldLine + n }
        | .Add => { st' with newLine := st.newLine.addInt n }
        | .Control => st'

/-- One full loop iteration: `processLine` followed by
`if (positionInHunk !== -1) ++positionInHunk`. -/
def step (st : ParserState) (line : List Char) : ParserState :=
  if (processLine st line).positionInHunk ≠ -1 then
    { processLine st line with positionInHunk := (processLine st line).positionInHunk + 1 }
  else processLine st line

/-- Run the loop over a list of scanned lines. -/
def runLines (st : ParserState) : List (List Char) → ParserState
  | [] => st
  | l :: ls => runLines (step st l) ls

/-- `parseDiffHunk` on an already-scanned line list: run the loop and
append the final `yield` of a still-open hunk. -/
def parseDiffHunkLines (ls : List (List Char)) : List DiffHunk :=
  let final := runLines initialState ls
  final.hunks ++ final.cur.toList

/-- `parseDiffHunk` from the source, materialised: scan the patch text
into lines and run the hunk builder. -/
def parseDiffHunk (patch : List Char) : List DiffHunk :=
  parseDiffHunkLines (lineReader patch)

/-- `parsePatch` from the source: the hunks of `parseDiffHunk`,
collected into a list (its auxiliary `right` array is dead
computation). -/
def parsePatch (patch : List Char) : List DiffHunk :=
  parseDiffHunk patch

/-! ## The content reconstructor (`getModifiedContentFromDiffHunk`) -/

/-- The scanning loop of `originalContent.split(/\r?\n/)`: split at
each `'\n'` or `'\r\n'` (leftmost, the `'\r'` consumed greedily when
adjacent), keeping the final — possibly empty — piece. -/
def splitLinesGo (acc : List Char) : List Char → List (List Char)
  | [] => [acc.reverse]
  | [c] => if c = '\n' then [acc.reverse, []] else [(c :: acc).reverse]
  | c :: c' :: rest =>
    if c = '\n' then acc.reverse :: splitLinesGo [] (c' :: rest)
    else if c = '\r' ∧ c' = '\n' then acc.reverse :: splitLinesGo [] rest
    else splitLinesGo (c :: acc) (c' :: rest)

/-- `originalContent.split(/\r?\n/)`.  Always non-empty (splitting the
empty string gives one empty piece). -/
def splitLines (cs : List Char) : List (List Char) :=
  splitLinesGo [] cs

/-- JavaScript array read `left[i]` for an integer index, as an
`Option`: `none` exactly when the index is outside `[0, length)`. -/
def jsGet (left : List (List Char)) (i : Int) : Option (List Char) :=
  if 0 ≤ i then left.get? i.toNat else none

/-- `n` iterations of a copy loop `for (; ...; j++) right.push(left[j - 1])`,
starting at `j`; fails if any read is out of range. -/
def copyCount (left : List (List Char)) (j : Int) : Nat → Option (List (List Char))
  | 0 => some []
  | n + 1 => do
    let l ← jsGet left (j - 1)
    let rest ← copyCount left (j + 1) n
    pure (l :: rest)

/-- The loop `for (let j = lo; j < stop; j++) right.push(left[j - 1])`:
`(stop - lo)` iterations (none when `stop ≤ lo`). -/
def copyRange (left : List (List Char)) (lo stop : Int) : Option (List (List Char)) :=
  copyCount left lo (stop - lo).toNat

/-- The lines a hunk contributes to the reconstructed content: the
`text` of its `Context` and `Add` lines in order; `Delete` and
`Control` lines contribute nothing. -/
def hunkBody (hunk : DiffHunk) : List (List Char) :=
  hunk.diffLines.filterMap fun dl =>
    match dl.type with
    | .Context => some dl.text
    | .Add => some dl.text
    | .Delete => none
    | .Control => none

/-- The per-hunk loop of `getModifiedContentFromDiffHunk`: copy the
original lines between `lastCommonLine` and the hunk's declared start,
emit the hunk's body, and set
`lastCommonLine := oldLineNumber + oldLength - 1`.  Returns the final
`lastCommonLine` and the output lines; fails if a copy read is out of
range. -/
def applyHunks (left : List (List Char)) :
    Int → List (List Char) → List DiffHunk → Option (Int × List (List Char))
  | lastCommonLine, acc, [] => some (lastCommonLine, acc)
  | lastCommonLine, acc, hunk :: rest => do
    let copied ← copyRange left (lastCommonLine + 1) hunk.oldLineNumber
    applyHunks left (hunk.oldLineNumber + hunk.oldLength - 1)
      (acc ++ copied ++ hunkBody hunk) rest

/-- `right.join('\n')`. -/
def joinNL : List (List Char) → List Char
  | [] => []
  | [p] => p
  | p :: ps => p ++ '\n' :: joinNL ps

/-- `getModifiedContentFromDiffHunk` from the source, with every array
read made explicit as an `Option`: split the original content, splice
each parsed hunk, copy the tail beyond the last covered original line,
and join with `'\n'`. -/
def getModifiedContentFromDiffHunk (originalContent patch : List Char) :
    Option (List Char) := do
  let left := splitLines originalContent
  let hunks := parseDiffHunk patch
  let r ← applyHunks left 0 [] hunks
  if r.1 < (left.length : Int) then
    let tail ← copyRange left (r.1 + 1) ((left.length : Int) + 1)
    pure (joinNL (r.2 ++ tail))
  else
    pure (joinNL r.2)

/-! ## Change status mapping -/

/-- Modelled from the spec: the change-type tags of `GitChangeType`
(declared in `file.ts`, which is not part of the sources); the spec
names exactly the tags DELETE, ADD, RENAME, MODIFY and UNKNOWN, plus
that the vocabulary is small and fixed. -/
inductive GitChangeType where
  | ADD
  | DELETE
  | RENAME
  | MODIFY
  | UNKNOWN
deriving DecidableEq

/-- `getGitChangeType` from the source: the fixed status-label table
with default `UNKNOWN`. -/
def getGitChangeType (status : String) : GitChangeType :=
  if status = "removed" then .DELETE
  else if status = "added" then .ADD
  else if status = "renamed" then .RENAME
  else if status = "modified" then .MODIFY
  else .UNKNOWN

/-! ## Instrumentation and specification-side definitions

Definitions below are not part of the embedding of the source; each
follows the words of a spec sentence (or reads a value off the parser
state) so that claims can be stated against the embedding. -/

/-- The `positionInHunk` value that processing `line` in state `st`
stamps on whatever it produces: on a header line the value after the
`positionInHunk === -1` reset, otherwise the current counter. -/
def stampOf (st : ParserState) (line : List Char) : Int :=
  if isHeaderLine line then (if st.positionInHunk = -1 then 0 else st.positionInHunk)
  else st.positionInHunk

/-- The stamped position of every scanned line in order, starting from
state `st`. -/
def stamps (st : ParserState) : List (List Char) → List Int
  | [] => []
  | l :: ls => stampOf st l :: stamps (step st l) ls

/-- The optional `,`-integer part of the header pattern exactly as
claim C1 states it: an optional `,` followed by an integer, the
integer defaulting to 0 when the part is absent. -/
def claimOptCommaInt (cs : List Char) : Nat × List Char :=
  match matchLit [','] cs with
  | none => (0, cs)
  | some cs' =>
    let td := takeDigits cs'
    if td.1.isEmpty then (0, cs) else (digitsVal td.1, td.2)

/-- The header pattern exactly as claim C1 states it, decoded,
attempted at the start of `cs`: literal `@@ -`, an integer, optionally
`,` and an integer (default 0), then literal ` +`, an integer,
optionally `,` and an integer (default 0), then literal ` @@`,
arbitrary trailing text ignored. -/
def claimHeaderAt (cs : List Char) : Option (Nat × Nat × Nat × Nat) := do
  let cs₁ ← matchLit ['@', '@', ' ', '-'] cs
  let t1 := takeDigits cs₁
  if t1.1.isEmpty then none
  else
    let p1 := claimOptCommaInt t1.2
    let cs₄ ← matchLit [' ', '+'] p1.2
    let t5 := takeDigits cs₄
    if t5.1.isEmpty then none
    else
      let p2 := claimOptCommaInt t5.2
      (matchLit [' ', '@', '@'] p2.2).map fun _ =>
        (digitsVal t1.1, p1.1, digitsVal t5.1, p2.1)

/-- The pattern of claim C1 searched anywhere in the line (being
generous to the claim, which only says trailing text is ignored). -/
def claimHeaderSearch : List Char → Option (Nat × Nat × Nat × Nat)
  | [] => none
  | c :: rest => claimHeaderAt (c :: rest) <|> claimHeaderSearch rest

/-- The amended new-side comma part, written deterministically from the
amended claim: after the new start, an optional `,` may be followed by
an optional integer; an absent integer gives new length 0, a present
one is decoded through `| 0` (ToInt32); afterwards ` @@` must follow. -/
def amendedNewComma (cs : List Char) : Option Int :=
  match matchLit [','] cs with
  | some cs₁ =>
    (matchLit [' ', '@', '@'] (takeDigits cs₁).2).map fun _ =>
      if (takeDigits cs₁).1.isEmpty then 0 else toInt32 (digitsVal (takeDigits cs₁).1)
  | none => (matchLit [' ', '@', '@'] cs).map fun _ => 0

/-- The amended new-side part, written deterministically from the
amended claim: the whole ` +` group is optional; when it is absent
(including when ` +` is not followed by an integer) the line continues
directly with ` @@` and the new start decodes to `NaN` with new
length 0. -/
def amendedNewPart (cs : List Char) : Option (JSNum × Int) :=
  match matchLit [' ', '+'] cs with
  | some cs₁ =>
    if (takeDigits cs₁).1.isEmpty then
      (matchLit [' ', '@', '@'] cs).map fun _ => (JSNum.nan, 0)
    else
      (amendedNewComma (takeDigits cs₁).2).map fun len =>
        (JSNum.int (digitsVal (takeDigits cs₁).1), len)
  | none => (matchLit [' ', '@', '@'] cs).map fun _ => (JSNum.nan, 0)

/-- The amended header pattern of claim C1, decoded, attempted at the
start of `cs`: literal `@@ -`, an integer (the original start),
optionally `,` and an integer (the original length, decoded through
`| 0`, default 0, and treated as absent when the `,` is not followed
by an integer), then the optional new-side part, then ` @@` with
arbitrary trailing text ignored. -/
def amendedHeaderAt (cs : List Char) : Option (Int × Int × JSNum × Int) := do
  let cs₁ ← matchLit ['@', '@', ' ', '-'] cs
  let t1 := takeDigits cs₁
  if t1.1.isEmpty then none
  else
    match matchLit [','] t1.2 with
    | some cs₃ =>
      if (takeDigits cs₃).1.isEmpty then
        (amendedNewPart t1.2).map fun q => ((digitsVal t1.1 : Int), 0, q.1, q.2)
      else
        (amendedNewPart (takeDigits cs₃).2).map fun q =>
          ((digitsVal t1.1 : Int), toInt32 (digitsVal (takeDigits cs₃).1), q.1, q.2)
    | none => (amendedNewPart t1.2).map fun q => ((digitsVal t1.1 : Int), 0, q.1, q.2)

/-- The amended header pattern searched anywhere in the line, leftmost
match first (the code's regex is unanchored, so leading text is also
ignored). -/
def amendedHeaderSearch : List Char → Option (Int × Int × JSNum × Int)
  | [] => none
  | c :: rest => amendedHeaderAt (c :: rest) <|> amendedHeaderSearch rest

/-- From the spec's words: newline normalization replaces each CRLF
terminator by a single `'\n'`. -/
def normalizeNewlines : List Char → List Char
  | [] => []
  | [c] => [c]
  | c :: c' :: rest =>
    if c = '\r' ∧ c' = '\n' then '\n' :: normalizeNewlines rest
    else c :: normalizeNewlines (c' :: rest)

/-! ## Helper lemmas -/

theorem matchLit_eq_some : ∀ {pat cs rest : List Char},
    matchLit pat cs = some rest ↔ cs = pat ++ rest := by
  intro pat
  induction pat with
  | nil =>
    intro cs rest
    rw [show matchLit [] cs = some cs from rfl]
    simp
  | cons p ps ih =>
    intro cs rest
    cases cs with
    | nil =>
      constructor
      · intro h; exact Option.noConfusion h
      · intro h; exact List.noConfusion h
    | cons c cs =>
      show (if c = p then matchLit ps cs else none) = some rest ↔ _
      by_cases hc : c = p
      · subst hc
        rw [if_pos rfl, ih]
        simp
      · rw [if_neg hc]
        constructor
        · intro h; exact Option.noConfusion h
        · intro h; injection h with h1 _; exact absurd h1 hc

theorem takeDigits_eq (c : Char) (cs : List Char) :
    takeDigits (c :: cs) =
      if c.isDigit then (c :: (takeDigits cs).1, (takeDigits cs).2)
      else ([], c :: cs) := rfl

theorem takeDigits_append : ∀ (cs : List Char), cs = (takeDigits cs).1 ++ (takeDigits cs).2 := by
  intro cs
  induction cs with
  | nil => rfl
  | cons c cs ih =>
    rw [takeDigits_eq]
    by_cases hd : c.isDigit
    · rw [if_pos hd]
      exact congrArg (c :: ·) ih
    · rw [if_neg hd]
      rfl

theorem takeDigits_head_isDigit : ∀ {cs d r : List Char} {c : Char},
    takeDigits cs = (c :: d, r) → c.isDigit = true := by
  intro cs d r c h
  cases cs with
  | nil => exact absurd (congrArg Prod.fst h) (by simp [takeDigits])
  | cons c' cs =>
    rw [takeDigits_eq] at h
    by_cases hd : c'.isDigit
    · rw [if_pos hd] at h
      injection h with h1 _
      injection h1 with h1 _
      exact h1 ▸ hd
    · rw [if_neg hd] at h
      injection h with h1 _
      exact absurd h1.symm (List.cons_ne_nil c d)

theorem orElse_none {α : Type} (x : Option α) : (x <|> none) = x := by
  cases x <;> rfl

theorem map_orElse {α β : Type} (f : α → β) (x y : Option α) :
    (x <|> y).map f = ((x.map f) <|> (y.map f)) := by
  cases x <;> rfl

theorem isDigit_ne {c x : Char} (h : c.isDigit = true) (hx : x.isDigit = false) :
    c ≠ x := by
  intro he
  rw [he, hx] at h
  exact Bool.noConfusion h

theorem matchLit_cons_ne {p c : Char} {ps r : List Char} (h : c ≠ p) :
    matchLit (p :: ps) (c :: r) = none := by
  show (if c = p then matchLit ps r else none) = none
  rw [if_neg h]

/-- `' @@'` cannot match at a digit. -/
theorem matchLit_close_at_digit {c : Char} {r : List Char} (h : c.isDigit = true) :
    matchLit [' ', '@', '@'] (c :: r) = none :=
  matchLit_cons_ne (isDigit_ne h (by decide))

/-- `' @@'` cannot match at a comma, nor can `' +'`. -/
theorem matchLit_close_at_comma (r : List Char) :
    matchLit [' ', '@', '@'] (',' :: r) = none :=
  matchLit_cons_ne (by decide)

theorem matchLit_plus_at_comma (r : List Char) :
    matchLit [' ', '+'] (',' :: r) = none :=
  matchLit_cons_ne (by decide)

/-- `' @@'` cannot match on `' +'`-prefixed text. -/
theorem matchLit_close_at_plus (r : List Char) :
    matchLit [' ', '@', '@'] (' ' :: '+' :: r) = none := by
  show (if ' ' = ' ' then matchLit ['@', '@'] ('+' :: r) else none) = none
  rw [if_pos rfl]
  exact matchLit_cons_ne (by decide)

/-- If `takeDigits` took no digits, it left its input unchanged. -/
theorem takeDigits_empty_rest {cs : List Char} (h : (takeDigits cs).1.isEmpty = true) :
    (takeDigits cs).2 = cs := by
  have happ := takeDigits_append cs
  rw [List.isEmpty_iff] at h
  rw [h] at happ
  exact happ.symm

/-- If `takeDigits` took digits, its input starts with a digit. -/
theorem takeDigits_nonempty_head {cs : List Char} (h : (takeDigits cs).1.isEmpty = false) :
    ∃ c r, cs = c :: r ∧ c.isDigit = true := by
  rw [List.isEmpty_eq_false_iff_exists_mem] at h
  obtain ⟨x, hx⟩ := h
  cases hd : (takeDigits cs).1 with
  | nil => rw [hd] at hx; cases hx
  | cons c d =>
    have hdig : c.isDigit = true := by
      have heq : takeDigits cs = ((takeDigits cs).1, (takeDigits cs).2) := rfl
      rw [hd] at heq
      exact takeDigits_head_isDigit heq
    have happ := takeDigits_append cs
    rw [hd] at happ
    exact ⟨c, d ++ (takeDigits cs).2, happ, hdig⟩

/-- The regex's new-side comma part agrees, after decoding, with the
deterministic `amendedNewComma`. -/
theorem newComma_decode (cs : List Char) :
    (matchNewComma cs).map (fun g7 => (jsNumOfGroup g7).orZero) = amendedNewComma cs := by
  cases hm : matchLit [','] cs with
  | none =>
    simp only [matchNewComma, amendedNewComma, hm, Option.bind_eq_bind, Option.none_bind,
      Option.none_orElse]
    cases matchLit [' ', '@', '@'] cs <;> rfl
  | some cs₁ =>
    have hcs : cs = ',' :: cs₁ := matchLit_eq_some.mp hm
    simp only [matchNewComma, amendedNewComma, hm, Option.bind_eq_bind, Option.some_bind]
    rw [hcs, matchLit_close_at_comma]
    simp only [Option.map_none', orElse_none]
    cases h7 : (takeDigits cs₁).1.isEmpty with
    | true =>
      rw [takeDigits_empty_rest h7]
      simp only [h7, if_true]
      cases matchLit [' ', '@', '@'] cs₁ <;> rfl
    | false =>
      obtain ⟨c, r, hsplit, hdig⟩ := takeDigits_nonempty_head h7
      have hB : matchLit [' ', '@', '@'] cs₁ = none := by
        rw [hsplit]
        exact matchLit_close_at_digit hdig
      rw [hB]
      simp only [Option.map_none', orElse_none]
      cases matchLit [' ', '@', '@'] (takeDigits cs₁).2 <;>
        simp [h7, jsNumOfGroup, JSNum.orZero]

/-- The regex's new-side part agrees, after decoding, with the
deterministic `amendedNewPart`. -/
theorem newPart_decode (cs : List Char) :
    (matchNewPart cs).map (fun p => (jsNumOfGroup p.1, (jsNumOfGroup p.2).orZero))
      = amendedNewPart cs := by
  cases hp : matchLit [' ', '+'] cs with
  | none =>
    simp only [matchNewPart, amendedNewPart, hp, Option.bind_eq_bind, Option.none_bind,
      Option.none_orElse]
    cases matchLit [' ', '@', '@'] cs <;> rfl
  | some cs₁ =>
    have hcs : cs = ' ' :: '+' :: cs₁ := matchLit_eq_some.mp hp
    have hfb : matchLit [' ', '@', '@'] cs = none := by
      rw [hcs]; exact matchLit_close_at_plus cs₁
    simp only [matchNewPart, amendedNewPart, hp, Option.bind_eq_bind, Option.some_bind, hfb,
      Option.map_none', orElse_none]
    cases h5 : (takeDigits cs₁).1.isEmpty with
    | true => simp
    | false =>
      simp only [Bool.false_eq_true, if_false]
      rw [← newComma_decode (takeDigits cs₁).2, Option.map_map, Option.map_map]
      cases matchNewComma (takeDigits cs₁).2 <;> rfl

/-- The whole new-side part fails on a line continuing with `,`. -/
theorem matchNewPart_comma_none (r : List Char) : matchNewPart (',' :: r) = none := by
  simp only [matchNewPart, matchLit_plus_at_comma, matchLit_close_at_comma,
    Option.bind_eq_bind, Option.none_bind, Option.map_none', Option.none_orElse]

theorem amendedNewPart_comma_none (r : List Char) : amendedNewPart (',' :: r) = none := by
  simp only [amendedNewPart, matchLit_plus_at_comma, matchLit_close_at_comma, Option.map_none']

/-- The regex `DIFF_HUNK_HEADER`, attempted at one start position and
decoded as the source decodes it, agrees with the deterministic
`amendedHeaderAt`. -/
theorem headerAt_decode (cs : List Char) :
    (matchHeaderAt cs).map decodeHeader = amendedHeaderAt cs := by
  cases h4 : matchLit ['@', '@', ' ', '-'] cs with
  | none =>
    simp only [matchHeaderAt, amendedHeaderAt, h4, Option.bind_eq_bind, Option.none_bind,
      Option.map_none']
  | some cs₁ =>
    simp only [matchHeaderAt, amendedHeaderAt, h4, Option.bind_eq_bind, Option.some_bind]
    cases h1 : (takeDigits cs₁).1.isEmpty with
    | true => simp
    | false =>
      simp only [Bool.false_eq_true, if_false]
      cases hc : matchLit [','] (takeDigits cs₁).2 with
      | none =>
        simp only [hc, Option.bind_eq_bind, Option.none_bind, Option.none_orElse]
        rw [← newPart_decode (takeDigits cs₁).2, Option.map_map, Option.map_map]
        cases matchNewPart (takeDigits cs₁).2 <;>
          simp [decodeHeader, jsNumOfGroup, JSNum.orZero]
      | some cs₃ =>
        have hsplit : (takeDigits cs₁).2 = ',' :: cs₃ := matchLit_eq_some.mp hc
        simp only [hc, Option.bind_eq_bind, Option.some_bind]
        cases h3 : (takeDigits cs₃).1.isEmpty with
        | true =>
          rw [if_pos rfl, if_pos rfl]
          simp only [Option.none_orElse]
          rw [hsplit, matchNewPart_comma_none, amendedNewPart_comma_none]
          simp only [Option.map_none']
        | false =>
          simp only [Bool.false_eq_true, if_false]
          rw [hsplit, matchNewPart_comma_none]
          simp only [Option.map_none', orElse_none]
          rw [← newPart_decode (takeDigits cs₃).2, Option.map_map, Option.map_map]
          cases matchNewPart (takeDigits cs₃).2 <;>
            simp [decodeHeader, jsNumOfGroup, JSNum.orZero]

/-- The full unanchored regex search, decoded, agrees with the
deterministic `amendedHeaderSearch`. -/
theorem search_decode (cs : List Char) :
    (searchHeader cs).map decodeHeader = amendedHeaderSearch cs := by
  induction cs with
  | nil => rfl
  | cons c rest ih =>
    show ((matchHeaderAt (c :: rest) <|> searchHeader rest).map decodeHeader) = _
    rw [map_orElse, headerAt_decode, ih]
    rfl

/-! ## Claim theorems -/

/-- C4: reconstructing the original content `"a\nb\nc"` with the patch
`@@ -1,3 +1,3 @@` / ` a` / `-b` / `+B` / ` c` yields exactly
`"a\nB\nc"`. -/
theorem claim4_example_reconstruction :
    getModifiedContentFromDiffHunk ("a\nb\nc".data) ("@@ -1,3 +1,3 @@\n a\n-b\n+B\n c".data)
      = some ("a\nB\nc".data) := by
  decide

/-- C1 (counterexample): the line `@@ -5 @@` does not match the pattern
the claim states — from `@@ -5` the claim's pattern requires a
` +` and a new-start integer before ` @@` — yet the code recognizes it
as a hunk header, and the decoded new start is `NaN`, not an
integer. -/
theorem claim1_counterexample :
    claimHeaderSearch ("@@ -5 @@".data) = none ∧
    isHeaderLine ("@@ -5 @@".data) = true ∧
    (searchHeader ("@@ -5 @@".data)).map decodeHeader = some (5, 0, .nan, 0) := by
  decide

/-- C1 (amended): a line is recognized as a hunk header if and only if
it contains, anywhere, the amended pattern — literal `@@ -`, an
integer, optionally `,` and an integer, then an *optional* new-side
part ` +` integer with an optional `,` and optional integer, then
literal ` @@` — and on recognition the decoded values are those of the
leftmost such match: original start exactly, original length through
`| 0` (default 0), new start as an integer or NaN when the new-side
part is absent, and new length through `| 0` (default 0). -/
theorem claim1_amended_header (line : List Char) :
    isHeaderLine line = (amendedHeaderSearch line).isSome ∧
    (searchHeader line).map decodeHeader = amendedHeaderSearch line := by
  have h := search_decode line
  refine ⟨?_, h⟩
  rw [isHeaderLine, ← h, Option.isSome_map']

/-- C3 (counterexample): a header whose declared original length wraps
to `-1` through `| 0` (`4294967295 | 0 = -1`) satisfies the claim's
hypotheses (`originalStart ≥ 1` and
`originalStart + originalLength - 1 ≤ number of original lines`) while
the between-hunk copy loop still reads past the end of the original
line list, so the Option-returning access takes its out-of-range
branch. -/
theorem claim3_counterexample :
    (∀ hunk ∈ parsePatch ("@@ -3,4294967295 +1,0 @@".data),
        1 ≤ hunk.oldLineNumber ∧
        hunk.oldLineNumber + hunk.oldLength - 1 ≤ ((splitLines ("x".data)).length : Int)) ∧
    getModifiedContentFromDiffHunk ("x".data) ("@@ -3,4294967295 +1,0 @@".data) = none := by
  decide

theorem lineReaderGo_no_nl : ∀ (cs acc : List Char), '\n' ∉ cs →
    lineReaderGo acc cs = [acc.reverse ++ cs] := by
  intro cs
  induction cs with
  | nil => intro acc _; simp [lineReaderGo]
  | cons c cs ih =>
    intro acc h
    have hc : ¬(c = '\n') := fun he => h (he ▸ List.mem_cons_self c cs)
    show (if c = '\n' then _ else lineReaderGo (c :: acc) cs) = _
    rw [if_neg hc, ih _ (fun hm => h (List.mem_cons_of_mem _ hm))]
    simp

theorem lineReaderGo_split : ∀ (seg acc rest : List Char), '\n' ∉ seg →
    lineReaderGo acc (seg ++ '\n' :: rest)
      = stripTrailCR (acc.reverse ++ seg)
          :: (if rest.isEmpty then [] else lineReaderGo [] rest) := by
  intro seg
  induction seg with
  | nil =>
    intro acc rest _
    show (if '\n' = '\n' then _ else _) = _
    rw [if_pos rfl]
    simp
  | cons c seg ih =>
    intro acc rest h
    have hc : ¬(c = '\n') := fun he => h (he ▸ List.mem_cons_self c seg)
    show (if c = '\n' then _ else lineReaderGo (c :: acc) (seg ++ '\n' :: rest)) = _
    rw [if_neg hc, ih _ _ (fun hm => h (List.mem_cons_of_mem _ hm))]
    simp

/-- C9: the line scanner yields the text's lines in order, stripping
`'\n'` and `'\r\n'` terminators from the yielded content; a terminator
exactly at the end of the input yields no trailing empty line after it
(instantiate the third conjunct with `rest = []` and use the first),
text not ending in a terminator yields its final partial line, and
empty text yields zero lines.  The three equations determine the
scanner's value on every input. -/
theorem claim9_line_scanner :
    lineReader ([]) = [] ∧
    (∀ cs : List Char, cs ≠ [] → '\n' ∉ cs → lineReader cs = [cs]) ∧
    (∀ seg rest : List Char, '\n' ∉ seg →
      lineReader (seg ++ '\n' :: rest) = stripTrailCR seg :: lineReader rest) := by
  refine ⟨rfl, ?_, ?_⟩
  · intro cs hne h
    rw [lineReader, if_neg (by simp [hne]), lineReaderGo_no_nl cs [] h]
    simp
  · intro seg rest h
    rw [lineReader, if_neg (by simp), lineReaderGo_split seg [] rest h]
    rw [lineReader]
    simp [stripTrailCR]

/-- Witness for C9 on the text `"a\r\nb"`: the first line is `"a\r"`
stripped of its carriage return, the second is the final partial
line. -/
theorem claim9_witness :
    lineReader (('a' :: '\r' :: []) ++ '\n' :: ('b' :: []))
      = stripTrailCR ('a' :: '\r' :: []) :: lineReader ('b' :: []) :=
  claim9_line_scanner.2.2 ('a' :: '\r' :: []) ('b' :: []) (by decide)

theorem step_idle {l : List Char} (h : isHeaderLine l = false) :
    step initialState l = initialState := by
  have hs : searchHeader l = none := by
    rw [isHeaderLine] at h
    exact Option.not_isSome_iff_eq_none.mp (by rw [h]; exact Bool.false_ne_true)
  rw [step, processLine, hs]
  rfl

theorem runLines_idle : ∀ (pre : List (List Char)), (∀ l ∈ pre, isHeaderLine l = false) →
    ∀ rest, runLines initialState (pre ++ rest) = runLines initialState rest := by
  intro pre
  induction pre with
  | nil => intro _ rest; rfl
  | cons p pre ih =>
    intro h rest
    show runLines (step initialState p) (pre ++ rest) = _
    rw [step_idle (h p (List.mem_cons_self p pre))]
    exact ih (fun l hl => h l (List.mem_cons_of_mem p hl)) rest

/-- C8: parsing is total and tolerant: a patch none of whose scanned
lines is a valid header yields the empty hunk sequence, and scanned
lines before the first valid header are ignored (they leave the parse
of the remaining lines unchanged). -/
theorem claim8_tolerant :
    (∀ patch : List Char, (∀ l ∈ lineReader patch, isHeaderLine l = false) →
      parsePatch patch = []) ∧
    (∀ pre rest : List (List Char), (∀ l ∈ pre, isHeaderLine l = false) →
      parseDiffHunkLines (pre ++ rest) = parseDiffHunkLines rest) := by
  constructor
  · intro patch h
    rw [parsePatch, parseDiffHunk, parseDiffHunkLines,
      show lineReader patch = lineReader patch ++ [] from (List.append_nil _).symm,
      runLines_idle (lineReader patch) h []]
    rfl
  · intro pre rest h
    rw [parseDiffHunkLines, parseDiffHunkLines, runLines_idle pre h rest]

/-- Witness for C8: a patch with no valid header yields no hunks, and a
junk prefix before a header leaves the parse unchanged. -/
theorem claim8_witness :
    parsePatch ("hello\n world\n+x".data) = [] :=
  claim8_tolerant.1 ("hello\n world\n+x".data) (by decide)

theorem splitLinesGo_ne_nil (acc cs : List Char) : splitLinesGo acc cs ≠ [] := by
  induction acc, cs using splitLinesGo.induct with
  | case1 acc => exact List.cons_ne_nil _ _
  | case2 acc => simp [splitLinesGo]
  | case3 acc c hc => simp [splitLinesGo, hc]
  | case4 acc c' rest ih => simp [splitLinesGo]
  | case5 acc c c' rest hc hcr ih => simp [splitLinesGo, hc, hcr]
  | case6 acc c c' rest hc hcr ih =>
    show splitLinesGo acc (c :: c' :: rest) ≠ []
    rw [splitLinesGo, if_neg hc, if_neg hcr]
    exact ih

theorem joinNL_cons (p : List Char) {l : List (List Char)} (h : l ≠ []) :
    joinNL (p :: l) = p ++ '\n' :: joinNL l := by
  cases l with
  | nil => exact absurd rfl h
  | cons q qs => rfl

theorem joinNL_splitLinesGo (acc cs : List Char) :
    joinNL (splitLinesGo acc cs) = acc.reverse ++ normalizeNewlines cs := by
  induction acc, cs using splitLinesGo.induct with
  | case1 acc => simp [splitLinesGo, joinNL, normalizeNewlines]
  | case2 acc =>
    show joinNL (if ('\n' : Char) = '\n' then [acc.reverse, []] else _) = _
    rw [if_pos rfl]
    simp [joinNL, normalizeNewlines]
  | case3 acc c hc =>
    show joinNL (if c = '\n' then [acc.reverse, []] else [(c :: acc).reverse]) = _
    rw [if_neg hc]
    simp [joinNL, normalizeNewlines]
  | case4 acc c' rest ih =>
    show joinNL (splitLinesGo acc ('\n' :: c' :: rest)) = _
    rw [splitLinesGo, if_pos rfl,
      joinNL_cons _ (splitLinesGo_ne_nil [] (c' :: rest)), ih]
    rw [show normalizeNewlines ('\n' :: c' :: rest)
        = '\n' :: normalizeNewlines (c' :: rest) by
      rw [normalizeNewlines, if_neg (by simp)]]
    simp
  | case5 acc c c' rest hc hcr ih =>
    obtain ⟨hcr1, hcr2⟩ := hcr
    subst hcr1; subst hcr2
    show joinNL (splitLinesGo acc ('\r' :: '\n' :: rest)) = _
    rw [splitLinesGo, if_neg hc, if_pos ⟨rfl, rfl⟩]
    cases hrest : rest with
    | nil =>
      simp [joinNL, splitLinesGo, normalizeNewlines]
    | cons r rs =>
      rw [← hrest, joinNL_cons _ (splitLinesGo_ne_nil [] rest), ih]
      rw [show normalizeNewlines ('\r' :: '\n' :: rest)
          = '\n' :: normalizeNewlines rest by
        rw [normalizeNewlines, if_pos ⟨rfl, rfl⟩]]
      simp
  | case6 acc c c' rest hc hcr ih =>
    show joinNL (splitLinesGo acc (c :: c' :: rest)) = _
    rw [splitLinesGo, if_neg hc, if_neg hcr, ih]
    rw [show normalizeNewlines (c :: c' :: rest)
        = c :: normalizeNewlines (c' :: rest) by
      rw [normalizeNewlines, if_neg hcr]]
    simp

theorem copyCount_drop : ∀ (n k : Nat) (left : List (List Char)), k + n ≤ left.length →
    copyCount left ((k : Int) + 1) n = some ((left.drop k).take n) := by
  intro n
  induction n with
  | zero => intro k left _; simp [copyCount]
  | succ n ih =>
    intro k left h
    have hk : k < left.length := by omega
    have hget : jsGet left ((k : Int) + 1 - 1) = some left[k] := by
      rw [jsGet, if_pos (by omega)]
      rw [show ((k : Int) + 1 - 1).toNat = k by omega]
      rw [List.get?_eq_getElem?, List.getElem?_eq_getElem hk]
    show (jsGet left ((k : Int) + 1 - 1)).bind _ = _
    rw [hget, Option.some_bind]
    rw [show (k : Int) + 1 + 1 = ((k + 1 : Nat) : Int) + 1 by push_cast; ring]
    rw [ih (k + 1) left (by omega)]
    show some (left[k] :: List.take n (List.drop (k + 1) left))
      = some (List.take (n + 1) (List.drop k left))
    rw [List.drop_eq_getElem_cons hk, List.take_succ_cons]

/-- C5: reconstructing with a patch that yields zero hunks returns the
original's line sequence rejoined with a single `'\n'` between lines —
the original content unchanged except for newline normalization
(every CRLF replaced by `'\n'`). -/
theorem claim5_zero_hunks (orig patch : List Char) (h : parsePatch patch = []) :
    getModifiedContentFromDiffHunk orig patch = some (joinNL (splitLines orig)) ∧
    joinNL (splitLines orig) = normalizeNewlines orig := by
  constructor
  · have hlen : 0 < (splitLines orig).length :=
      List.length_pos.mpr (splitLinesGo_ne_nil [] orig)
    have h' : parseDiffHunk patch = [] := h
    have happ : applyHunks (splitLines orig) 0 [] [] = some (0, []) := rfl
    have hcopy : copyRange (splitLines orig) ((0 : Int) + 1)
        (((splitLines orig).length : Int) + 1) = some (splitLines orig) := by
      rw [copyRange]
      rw [show ((0 : Int) + 1) = ((0 : Nat) : Int) + 1 by norm_num]
      rw [show ((((splitLines orig).length : Int) + 1) - (((0 : Nat) : Int) + 1)).toNat
          = (splitLines orig).length by omega]
      rw [copyCount_drop _ 0 _ (by omega)]
      simp
    simp only [getModifiedContentFromDiffHunk, h', happ, Option.bind_eq_bind,
      Option.some_bind]
    rw [if_pos (by exact_mod_cast hlen : (0 : Int) < ((splitLines orig).length : Int))]
    rw [hcopy, Option.some_bind]
    simp
  · exact joinNL_splitLinesGo [] orig

/-- Witness for C5 on original content `"a\r\nb"` and the empty patch:
the empty patch parses to zero hunks and the reconstruction is the
normalized original. -/
theorem claim5_witness :
    parsePatch ([]) = [] ∧
    getModifiedContentFromDiffHunk ("a\r\nb".data) ([])
      = some (joinNL (splitLines ("a\r\nb".data))) :=
  ⟨by decide, (claim5_zero_hunks ("a\r\nb".data) ([]) (by decide)).1⟩

theorem copyCount_isSome : ∀ (n : Nat) (left : List (List Char)) (j : Int),
    1 ≤ j → j - 1 + (n : Int) ≤ (left.length : Int) →
    (copyCount left j n).isSome = true := by
  intro n
  induction n with
  | zero => intro left j _ _; rfl
  | succ n ih =>
    intro left j hj hb
    have h0 : (0 : Int) ≤ j - 1 := by omega
    have hk : (j - 1).toNat < left.length := by omega
    have hget : jsGet left (j - 1) = some left[(j - 1).toNat] := by
      rw [jsGet, if_pos h0, List.get?_eq_getElem?, List.getElem?_eq_getElem hk]
    show ((jsGet left (j - 1)).bind _).isSome = true
    rw [hget, Option.some_bind]
    have hrec := ih left (j + 1) (by omega) (by omega)
    cases hc : copyCount left (j + 1) n with
    | none => rw [hc] at hrec; exact absurd hrec (by simp)
    | some r => rfl

theorem applyHunks_some : ∀ (hs : List DiffHunk) (left : List (List Char)) (lcl : Int)
    (acc : List (List Char)), 0 ≤ lcl →
    (∀ hunk ∈ hs, 1 ≤ hunk.oldLineNumber ∧ 0 ≤ hunk.oldLength ∧
      hunk.oldLineNumber + hunk.oldLength - 1 ≤ (left.length : Int)) →
    ∃ r, applyHunks left lcl acc hs = some r ∧ 0 ≤ r.1 := by
  intro hs
  induction hs with
  | nil => intro left lcl acc h0 _; exact ⟨(lcl, acc), rfl, h0⟩
  | cons hunk hs ih =>
    intro left lcl acc h0 hyp
    obtain ⟨h1, h2, h3⟩ := hyp hunk (List.mem_cons_self _ _)
    have hcopy : (copyRange left (lcl + 1) hunk.oldLineNumber).isSome = true := by
      by_cases hle : hunk.oldLineNumber ≤ lcl + 1
      · rw [copyRange, show (hunk.oldLineNumber - (lcl + 1)).toNat = 0 by omega]
        rfl
      · rw [copyRange]
        apply copyCount_isSome
        · omega
        · omega
    obtain ⟨copied, hcv⟩ := Option.isSome_iff_exists.mp hcopy
    obtain ⟨r, hr, hr0⟩ :=
      ih left (hunk.oldLineNumber + hunk.oldLength - 1) (acc ++ copied ++ hunkBody hunk)
        (by omega) (fun h hm => hyp h (List.mem_cons_of_mem _ hm))
    refine ⟨r, ?_, hr0⟩
    show (copyRange left (lcl + 1) hunk.oldLineNumber).bind _ = some r
    rw [hcv, Option.some_bind]
    exact hr

/-- C3 (amended): if every hunk parsed from the patch satisfies
`originalStart ≥ 1`, `0 ≤ originalLength`, and
`originalStart + originalLength − 1 ≤` the number of lines the original
content splits into, then every read of the split original-line list —
in the between-hunk copy loop and in the tail copy — is in bounds: the
Option-returning reconstruction never takes its out-of-range branch. -/
theorem claim3_amended (orig patch : List Char)
    (h : ∀ hunk ∈ parsePatch patch, 1 ≤ hunk.oldLineNumber ∧ 0 ≤ hunk.oldLength ∧
      hunk.oldLineNumber + hunk.oldLength - 1 ≤ ((splitLines orig).length : Int)) :
    (getModifiedContentFromDiffHunk orig patch).isSome = true := by
  obtain ⟨r, hr, hr0⟩ :=
    applyHunks_some (parsePatch patch) (splitLines orig) 0 [] (le_refl 0) h
  show ((applyHunks (splitLines orig) 0 [] (parseDiffHunk patch)).bind _).isSome = true
  rw [show parseDiffHunk patch = parsePatch patch from rfl, hr, Option.some_bind]
  by_cases hlt : r.1 < ((splitLines orig).length : Int)
  · rw [if_pos hlt]
    have htail : (copyRange (splitLines orig) (r.1 + 1)
        (((splitLines orig).length : Int) + 1)).isSome = true := by
      rw [copyRange]
      apply copyCount_isSome
      · omega
      · omega
    obtain ⟨t, ht⟩ := Option.isSome_iff_exists.mp htail
    show ((copyRange (splitLines orig) (r.1 + 1)
        (((splitLines orig).length : Int) + 1)).bind _).isSome = true
    rw [ht, Option.some_bind]
    rfl
  · rw [if_neg hlt]
    rfl

/-- Witness for C3 (amended) on the example original content and patch
of claim C4. -/
theorem claim3_witness :
    (∀ hunk ∈ parsePatch ("@@ -1,3 +1,3 @@\n a\n-b\n+B\n c".data),
        1 ≤ hunk.oldLineNumber ∧ 0 ≤ hunk.oldLength ∧
        hunk.oldLineNumber + hunk.oldLength - 1
          ≤ ((splitLines ("a\nb\nc".data)).length : Int)) ∧
    (getModifiedContentFromDiffHunk ("a\nb\nc".data)
        ("@@ -1,3 +1,3 @@\n a\n-b\n+B\n c".data)).isSome = true :=
  ⟨by decide, claim3_amended ("a\nb\nc".data) ("@@ -1,3 +1,3 @@\n a\n-b\n+B\n c".data)
    (by decide)⟩

theorem processLine_pos {st : ParserState} (l : List Char) (h : st.positionInHunk ≠ -1) :
    (processLine st l).positionInHunk = st.positionInHunk := by
  cases hs : searchHeader l with
  | some g =>
    simp only [processLine, hs]
    rw [if_neg h]
  | none =>
    cases hc : st.cur with
    | none => simp only [processLine, hs, hc]
    | some hunk =>
      simp only [processLine, hs, hc]
      by_cases hctl : getDiffChangeType l = DiffChangeType.Control
      · rw [if_pos hctl]
      · rw [if_neg hctl]
        cases getDiffChangeType l <;> rfl

theorem step_pos {st : ParserState} (l : List Char) (h : 0 ≤ st.positionInHunk) :
    (step st l).positionInHunk = st.positionInHunk + 1 := by
  have hne : st.positionInHunk ≠ -1 := by omega
  have hp := processLine_pos l hne
  rw [step, if_pos (by rw [hp]; exact hne)]
  show (processLine st l).positionInHunk + 1 = _
  rw [hp]

theorem stampOf_started {st : ParserState} (l : List Char) (h : st.positionInHunk ≠ -1) :
    stampOf st l = st.positionInHunk := by
  rw [stampOf]
  cases isHeaderLine l with
  | true => rw [if_pos rfl, if_neg h]
  | false => rw [if_neg (by simp)]

theorem stamps_started : ∀ (ls : List (List Char)) (st : ParserState),
    0 ≤ st.positionInHunk →
    stamps st ls = (List.range ls.length).map (fun i : Nat => st.positionInHunk + (i : Int)) := by
  intro ls
  induction ls with
  | nil => intro st _; rfl
  | cons l ls ih =>
    intro st h
    rw [stamps, stampOf_started l (by omega), ih (step st l) (by rw [step_pos l h]; omega),
      step_pos l h]
    rw [List.length_cons, List.range_succ_eq_map]
    rw [List.map_cons, List.map_map]
    refine congrArg₂ _ (by omega) ?_
    refine List.map_congr_left ?_
    intro i _
    show st.positionInHunk + 1 + (i : Int) = st.positionInHunk + ((i + 1 : Nat) : Int)
    push_cast
    ring

theorem stamps_idle : ∀ (pre : List (List Char)), (∀ l ∈ pre, isHeaderLine l = false) →
    ∀ rest, stamps initialState (pre ++ rest)
      = List.replicate pre.length (-1) ++ stamps initialState rest := by
  intro pre
  induction pre with
  | nil => intro _ rest; rfl
  | cons p pre ih =>
    intro h rest
    have hp := h p (List.mem_cons_self p pre)
    rw [List.cons_append, stamps, step_idle hp,
      ih (fun l hl => h l (List.mem_cons_of_mem p hl)) rest]
    rw [stampOf, hp]
    rw [if_neg (by simp)]
    rfl

theorem header_step (hline : List Char) (g : HeaderGroups)
    (hg : searchHeader hline = some g) :
    (step initialState hline).positionInHunk = 1 ∧
    (step initialState hline).hunks = [] ∧
    ∃ hunk, (step initialState hline).cur = some hunk ∧ hunk.positionInHunk = 0 := by
  have hproc : processLine initialState hline =
      { hunks := [], cur := some
          { oldLineNumber := (decodeHeader g).1, oldLength := (decodeHeader g).2.1,
            newLineNumber := (decodeHeader g).2.2.1, newLength := (decodeHeader g).2.2.2,
            positionInHunk := 0,
            diffLines := [{ type := .Control, oldLineNumber := -1,
                            newLineNumber := .int (-1), positionInHunk := 0,
                            raw := hline }] },
        positionInHunk := 0, oldLine := (decodeHeader g).1,
        newLine := (decodeHeader g).2.2.1 } := by
    simp only [processLine, hg]
    rfl
  rw [step, hproc]
  refine ⟨rfl, rfl, _, rfl, rfl⟩

/-- On a non-header line with an open hunk, the loop body leaves the
emitted hunks, the position counter and every header field of the open
hunk unchanged; only the open hunk's `diffLines` is modified. -/
theorem processLine_nonheader {st : ParserState} {hunk : DiffHunk} {l : List Char}
    (hs : searchHeader l = none) (hc : st.cur = some hunk) :
    (processLine st l).hunks = st.hunks ∧
    (processLine st l).positionInHunk = st.positionInHunk ∧
    ∃ hunk', (processLine st l).cur = some hunk' ∧
      hunk'.oldLineNumber = hunk.oldLineNumber ∧ hunk'.oldLength = hunk.oldLength ∧
      hunk'.newLineNumber = hunk.newLineNumber ∧ hunk'.newLength = hunk.newLength ∧
      hunk'.positionInHunk = hunk.positionInHunk ∧
      hunk'.diffLines =
        (if getDiffChangeType l = .Control then setLastNoBreak hunk.diffLines
         else hunk.diffLines ++
            [{ type := getDiffChangeType l,
               oldLineNumber := if getDiffChangeType l ≠ .Add then st.oldLine else -1,
               newLineNumber := if getDiffChangeType l ≠ .Delete then st.newLine
                 else .int (-1),
               positionInHunk := st.positionInHunk, raw := l }]) ∧
    (processLine st l).oldLine =
      (if getDiffChangeType l = .Control ∨ getDiffChangeType l = .Add then st.oldLine
       else st.oldLine + (1 + (countCarriageReturns l : Int))) ∧
    (processLine st l).newLine =
      (if getDiffChangeType l = .Control ∨ getDiffChangeType l = .Delete then st.newLine
       else st.newLine.addInt (1 + (countCarriageReturns l : Int))) := by
  simp only [processLine, hs, hc]
  by_cases hctl : getDiffChangeType l = DiffChangeType.Control
  · rw [if_pos hctl, if_pos hctl, if_pos (Or.inl hctl), if_pos (Or.inl hctl)]
    exact ⟨rfl, rfl, _, rfl, rfl, rfl, rfl, rfl, rfl, rfl, rfl, rfl⟩
  · rw [if_neg hctl, if_neg hctl]
    cases hty : getDiffChangeType l with
    | Context =>
      rw [if_neg (show ¬(DiffChangeType.Context = DiffChangeType.Control ∨
            DiffChangeType.Context = DiffChangeType.Add) by simp),
          if_neg (show ¬(DiffChangeType.Context = DiffChangeType.Control ∨
            DiffChangeType.Context = DiffChangeType.Delete) by simp)]
      exact ⟨rfl, rfl, _, rfl, rfl, rfl, rfl, rfl, rfl, rfl, rfl, rfl⟩
    | Add =>
      rw [if_pos (show DiffChangeType.Add = DiffChangeType.Control ∨
            DiffChangeType.Add = DiffChangeType.Add from Or.inr rfl),
          if_neg (show ¬(DiffChangeType.Add = DiffChangeType.Control ∨
            DiffChangeType.Add = DiffChangeType.Delete) by simp)]
      exact ⟨rfl, rfl, _, rfl, rfl, rfl, rfl, rfl, rfl, rfl, rfl, rfl⟩
    | Delete =>
      rw [if_neg (show ¬(DiffChangeType.Delete = DiffChangeType.Control ∨
            DiffChangeType.Delete = DiffChangeType.Add) by simp),
          if_pos (show DiffChangeType.Delete = DiffChangeType.Control ∨
            DiffChangeType.Delete = DiffChangeType.Delete from Or.inr rfl)]
      exact ⟨rfl, rfl, _, rfl, rfl, rfl, rfl, rfl, rfl, rfl, rfl, rfl⟩
    | Control => exact absurd hty hctl

theorem step_hunks_cur (st : ParserState) (l : List Char) :
    (step st l).hunks = (processLine st l).hunks ∧
    (step st l).cur = (processLine st l).cur ∧
    (step st l).oldLine = (processLine st l).oldLine ∧
    (step st l).newLine = (processLine st l).newLine := by
  rw [step]
  by_cases hp : (processLine st l).positionInHunk ≠ -1
  · rw [if_pos hp]; exact ⟨rfl, rfl, rfl, rfl⟩
  · rw [if_neg hp]; exact ⟨rfl, rfl, rfl, rfl⟩

theorem step_headPos (st : ParserState) (l : List Char) (p : Int)
    (h : ((st.hunks ++ st.cur.toList).map DiffHunk.positionInHunk).head? = some p) :
    (((step st l).hunks ++ (step st l).cur.toList).map DiffHunk.positionInHunk).head?
      = some p := by
  rw [(step_hunks_cur st l).1, (step_hunks_cur st l).2.1]
  cases hs : searchHeader l with
  | some g =>
    simp only [processLine, hs]
    rw [List.map_append, List.head?_append, h]
    rfl
  | none =>
    cases hc : st.cur with
    | none =>
      have hp : processLine st l = st := by simp only [processLine, hs, hc]
      rw [hp]
      exact h
    | some hunk =>
      obtain ⟨hhunks, -, hunk', hcur', -, -, -, -, hpos', -, -, -⟩ :=
        processLine_nonheader hs hc
      rw [hhunks, hcur']
      rw [hc] at h
      rw [List.map_append, List.head?_append] at h ⊢
      cases hh : (st.hunks.map DiffHunk.positionInHunk).head? with
      | some q =>
        rw [hh] at h
        exact h
      | none =>
        rw [hh, Option.none_or] at h
        show some hunk'.positionInHunk = some p
        rw [hpos']
        exact h

theorem runLines_headPos : ∀ (ls : List (List Char)) (st : ParserState) (p : Int),
    ((st.hunks ++ st.cur.toList).map DiffHunk.positionInHunk).head? = some p →
    (((runLines st ls).hunks ++ (runLines st ls).cur.toList).map
        DiffHunk.positionInHunk).head? = some p := by
  intro ls
  induction ls with
  | nil => intro st p h; exact h
  | cons l ls ih => intro st p h; exact ih (step st l) p (step_headPos st l p h)

/-- C2: the cumulative position counter is stamped `-1`-off (disabled)
on every line before the first recognized header, is 0 on the first
header line, and each subsequently scanned line — content, control
marker and later header lines alike — is stamped exactly one more than
the previous line, never resetting at a hunk boundary: the stamp of the
line scanned `i` lines after the first header is exactly `i` (so a
second hunk's header receives a stamp strictly greater than every stamp
in the first hunk); moreover the first emitted hunk's `positionInHunk`
is 0. -/
theorem claim2_cumulative_positions (pre rest : List (List Char)) (hline : List Char)
    (hpre : ∀ l ∈ pre, isHeaderLine l = false) (hh : isHeaderLine hline = true) :
    stamps initialState (pre ++ hline :: rest)
      = List.replicate pre.length (-1)
          ++ (List.range (rest.length + 1)).map (fun i : Nat => (i : Int)) ∧
    ((parseDiffHunkLines (pre ++ hline :: rest)).map DiffHunk.positionInHunk).head?
      = some 0 := by
  obtain ⟨g, hg⟩ := Option.isSome_iff_exists.mp (by rw [isHeaderLine] at hh; exact hh)
  obtain ⟨hpos1, hhunks, hunk, hcur, hhpos⟩ := header_step hline g hg
  constructor
  · rw [stamps_idle pre hpre (hline :: rest), stamps]
    rw [stamps_started rest (step initialState hline) (by rw [hpos1]; omega), hpos1]
    rw [stampOf, if_pos hh, if_pos (show initialState.positionInHunk = -1 from rfl)]
    rw [List.range_succ_eq_map, List.map_cons, List.map_map]
    refine congrArg _ ?_
    refine congrArg₂ _ (by norm_num) ?_
    refine List.map_congr_left ?_
    intro i _
    simp only [Function.comp_apply]
    push_cast
    ring
  · rw [parseDiffHunkLines, runLines_idle pre hpre (hline :: rest)]
    show (((runLines (step initialState hline) rest).hunks
        ++ (runLines (step initialState hline) rest).cur.toList).map
          DiffHunk.positionInHunk).head? = some 0
    apply runLines_headPos
    rw [hhunks, hcur]
    simp [hhpos]

/-- Witness for C2: a junk line, a header, a content line and a second
header; the stamps are `[-1, 0, 1, 2]` and the first hunk's
`positionInHunk` is 0. -/
theorem claim2_witness :
    stamps initialState ([(' ' :: 'x' :: [])]
        ++ ("@@ -1 +1 @@".data) :: [(" a".data), ("@@ -4 +4 @@".data)])
      = List.replicate 1 (-1) ++ (List.range 3).map (fun i => (i : Int)) ∧
    ((parseDiffHunkLines ([(' ' :: 'x' :: [])]
        ++ ("@@ -1 +1 @@".data) :: [(" a".data), ("@@ -4 +4 @@".data)])).map
          DiffHunk.positionInHunk).head? = some 0 :=
  claim2_cumulative_positions [(' ' :: 'x' :: [])] [(" a".data), ("@@ -4 +4 @@".data)]
    ("@@ -1 +1 @@".data) (by decide) (by decide)

theorem searchHeader_none {l : List Char} (h : isHeaderLine l = false) :
    searchHeader l = none := by
  rw [isHeaderLine] at h
  exact Option.not_isSome_iff_eq_none.mp (by rw [h]; exact Bool.false_ne_true)

theorem setLastNoBreak_length : ∀ l : List DiffLine,
    (setLastNoBreak l).length = l.length := by
  intro l
  induction l using setLastNoBreak.induct with
  | case1 => rfl
  | case2 x => rfl
  | case3 x y hne ih =>
    cases y with
    | nil => exact absurd rfl hne
    | cons z zs =>
      show (x :: setLastNoBreak (z :: zs)).length = (x :: z :: zs).length
      rw [List.length_cons, ih]
      rfl

theorem setLastNoBreak_ne_nil (l : List DiffLine) (hl : l ≠ []) :
    setLastNoBreak l ≠ [] := by
  intro hn
  have hlen := setLastNoBreak_length l
  rw [hn] at hlen
  exact hl (List.length_eq_zero.mp hlen.symm)

theorem setLastNoBreak_dropLast : ∀ l : List DiffLine,
    (setLastNoBreak l).dropLast = l.dropLast := by
  intro l
  induction l using setLastNoBreak.induct with
  | case1 => rfl
  | case2 x => rfl
  | case3 x y hne ih =>
    cases y with
    | nil => exact absurd rfl hne
    | cons z zs =>
      show (x :: setLastNoBreak (z :: zs)).dropLast = (x :: z :: zs).dropLast
      cases hsl : setLastNoBreak (z :: zs) with
      | nil => exact absurd hsl (setLastNoBreak_ne_nil _ (List.cons_ne_nil z zs))
      | cons w ws =>
        rw [List.dropLast_cons₂, ← hsl, ih, List.dropLast_cons₂]

theorem setLastNoBreak_getLast? : ∀ (l : List DiffLine) (x : DiffLine),
    l.getLast? = some x →
    (setLastNoBreak l).getLast? = some { x with endwithLineBreak := false } := by
  intro l
  induction l using setLastNoBreak.induct with
  | case1 => intro x hx; exact Option.noConfusion hx
  | case2 y =>
    intro x hx
    injection hx with hx
    rw [← hx]
    rfl
  | case3 y z hne ih =>
    intro x hx
    cases z with
    | nil => exact absurd rfl hne
    | cons w ws =>
      rw [List.getLast?_cons_cons] at hx
      show (y :: setLastNoBreak (w :: ws)).getLast? = _
      cases hsl : setLastNoBreak (w :: ws) with
      | nil => exact absurd hsl (setLastNoBreak_ne_nil _ (List.cons_ne_nil w ws))
      | cons v vs =>
        rw [List.getLast?_cons_cons, ← hsl]
        exact ih x hx

/-- C6: while a hunk is open, a non-header line classified `Control`
(first character not `' '`, `'+'` or `'-'`, such as the
`\ No newline at end of file` marker) appends no `DiffLine`: the open
hunk's line count is unchanged, all lines but the last are untouched,
the most recently appended line — when one exists — gets
`endwithLineBreak := false`, and the position counter still advances by
one. -/
theorem claim6_control_marker (st : ParserState) (hunk : DiffHunk) (line : List Char)
    (hcur : st.cur = some hunk) (hnh : isHeaderLine line = false)
    (hctl : getDiffChangeType line = .Control) (hpos : 0 ≤ st.positionInHunk) :
    ∃ hunk', (step st line).cur = some hunk' ∧
      hunk'.diffLines.length = hunk.diffLines.length ∧
      hunk'.diffLines.dropLast = hunk.diffLines.dropLast ∧
      (∀ last, hunk.diffLines.getLast? = some last →
        hunk'.diffLines.getLast? = some { last with endwithLineBreak := false }) ∧
      (step st line).positionInHunk = st.positionInHunk + 1 ∧
      (step st line).hunks = st.hunks := by
  have hs := searchHeader_none hnh
  obtain ⟨hhunks, -, hunk', hcur', -, -, -, -, -, hdl, -, -⟩ :=
    processLine_nonheader hs hcur
  rw [if_pos hctl] at hdl
  refine ⟨hunk', (step_hunks_cur st line).2.1.trans hcur', ?_, ?_, ?_, step_pos line hpos,
    (step_hunks_cur st line).1.trans hhunks⟩
  · rw [hdl, setLastNoBreak_length]
  · rw [hdl, setLastNoBreak_dropLast]
  · intro last hl
    rw [hdl]
    exact setLastNoBreak_getLast? _ _ hl

/-- Witness for C6: in a state with an open one-line hunk, the marker
line `\ No newline at end of file` flips the last line's
`endwithLineBreak`, appends nothing, and advances the position. -/
theorem claim6_witness :
    ∃ hunk', (step ⟨[], some ⟨1, 1, JSNum.int 1, 1, 0,
          [⟨DiffChangeType.Context, 1, JSNum.int 1, 1, (" a".data), true⟩]⟩,
        2, 2, JSNum.int 2⟩ ("\\ No newline at end of file".data)).cur = some hunk' ∧
      hunk'.diffLines.length =
        ([⟨DiffChangeType.Context, 1, JSNum.int 1, 1, (" a".data), true⟩]
          : List DiffLine).length ∧
      hunk'.diffLines.dropLast =
        ([⟨DiffChangeType.Context, 1, JSNum.int 1, 1, (" a".data), true⟩]
          : List DiffLine).dropLast ∧
      (∀ last, ([⟨DiffChangeType.Context, 1, JSNum.int 1, 1, (" a".data), true⟩]
          : List DiffLine).getLast? = some last →
        hunk'.diffLines.getLast? = some { last with endwithLineBreak := false }) ∧
      (step ⟨[], some ⟨1, 1, JSNum.int 1, 1, 0,
          [⟨DiffChangeType.Context, 1, JSNum.int 1, 1, (" a".data), true⟩]⟩,
        2, 2, JSNum.int 2⟩
        ("\\ No newline at end of file".data)).positionInHunk = 2 + 1 ∧
      (step ⟨[], some ⟨1, 1, JSNum.int 1, 1, 0,
          [⟨DiffChangeType.Context, 1, JSNum.int 1, 1, (" a".data), true⟩]⟩,
        2, 2, JSNum.int 2⟩
        ("\\ No newline at end of file".data)).hunks = [] :=
  claim6_control_marker
    ⟨[], some ⟨1, 1, JSNum.int 1, 1, 0,
        [⟨DiffChangeType.Context, 1, JSNum.int 1, 1, (" a".data), true⟩]⟩,
      2, 2, JSNum.int 2⟩
    ⟨1, 1, JSNum.int 1, 1, 0,
      [⟨DiffChangeType.Context, 1, JSNum.int 1, 1, (" a".data), true⟩]⟩
    ("\\ No newline at end of file".data) rfl (by decide) (by decide) (by decide)

/-- C7: while a hunk is open, a content line (`Context`, `Add` or
`Delete`) produces exactly one `DiffLine`, carrying the current
cursors, position and raw text; with
`n = 1 + (number of embedded carriage returns)`, a `Context` line
advances both cursors by `n`, an `Add` line only the new-side cursor,
and a `Delete` line only the original-side cursor; the position counter
advances by one. -/
theorem claim7_content_line (st : ParserState) (hunk : DiffHunk) (line : List Char)
    (hcur : st.cur = some hunk) (hnh : isHeaderLine line = false)
    (hty : getDiffChangeType line ≠ .Control) (hpos : 0 ≤ st.positionInHunk) :
    ∃ hunk', (step st line).cur = some hunk' ∧
      hunk'.diffLines = hunk.diffLines ++
        [{ type := getDiffChangeType line,
           oldLineNumber := if getDiffChangeType line ≠ .Add then st.oldLine else -1,
           newLineNumber := if getDiffChangeType line ≠ .Delete then st.newLine
             else .int (-1),
           positionInHunk := st.positionInHunk, raw := line }] ∧
      (step st line).oldLine =
        (if getDiffChangeType line = .Add then st.oldLine
         else st.oldLine + (1 + (countCarriageReturns line : Int))) ∧
      (step st line).newLine =
        (if getDiffChangeType line = .Delete then st.newLine
         else st.newLine.addInt (1 + (countCarriageReturns line : Int))) ∧
      (step st line).positionInHunk = st.positionInHunk + 1 ∧
      (step st line).hunks = st.hunks := by
  have hs := searchHeader_none hnh
  obtain ⟨hhunks, -, hunk', hcur', -, -, -, -, -, hdl, hold, hnew⟩ :=
    processLine_nonheader hs hcur
  rw [if_neg hty] at hdl
  rw [if_congr (or_iff_right hty) rfl rfl] at hold hnew
  exact ⟨hunk', (step_hunks_cur st line).2.1.trans hcur', hdl,
    (step_hunks_cur st line).2.2.1.trans hold,
    (step_hunks_cur st line).2.2.2.trans hnew,
    step_pos line hpos, (step_hunks_cur st line).1.trans hhunks⟩

/-- Witness for C7: a `Context` line with one embedded carriage return
(`" a\rb"`) produces exactly one `DiffLine` and advances both cursors
by 2. -/
theorem claim7_witness :
    ∃ hunk', (step ⟨[], some ⟨1, 2, JSNum.int 1, 2, 0, []⟩, 1, 1, JSNum.int 1⟩
        (" a\rb".data)).cur = some hunk' ∧
      hunk'.diffLines = [] ++
        [{ type := getDiffChangeType (" a\rb".data),
           oldLineNumber := if getDiffChangeType (" a\rb".data) ≠ .Add then (1 : Int)
             else -1,
           newLineNumber := if getDiffChangeType (" a\rb".data) ≠ .Delete then JSNum.int 1
             else .int (-1),
           positionInHunk := 1, raw := (" a\rb".data) }] ∧
      (step ⟨[], some ⟨1, 2, JSNum.int 1, 2, 0, []⟩, 1, 1, JSNum.int 1⟩
        (" a\rb".data)).oldLine =
        (if getDiffChangeType (" a\rb".data) = .Add then (1 : Int)
         else 1 + (1 + (countCarriageReturns (" a\rb".data) : Int))) ∧
      (step ⟨[], some ⟨1, 2, JSNum.int 1, 2, 0, []⟩, 1, 1, JSNum.int 1⟩
        (" a\rb".data)).newLine =
        (if getDiffChangeType (" a\rb".data) = .Delete then JSNum.int 1
         else (JSNum.int 1).addInt (1 + (countCarriageReturns (" a\rb".data) : Int))) ∧
      (step ⟨[], some ⟨1, 2, JSNum.int 1, 2, 0, []⟩, 1, 1, JSNum.int 1⟩
        (" a\rb".data)).positionInHunk = 1 + 1 ∧
      (step ⟨[], some ⟨1, 2, JSNum.int 1, 2, 0, []⟩, 1, 1, JSNum.int 1⟩
        (" a\rb".data)).hunks = [] :=
  claim7_content_line ⟨[], some ⟨1, 2, JSNum.int 1, 2, 0, []⟩, 1, 1, JSNum.int 1⟩
    ⟨1, 2, JSNum.int 1, 2, 0, []⟩ (" a\rb".data) rfl (by decide) (by decide) (by decide)

/-- C10: the status-label mapping returns DELETE for "removed", ADD for
"added", RENAME for "renamed", MODIFY for "modified", and UNKNOWN for
every other string. -/
theorem claim10_status_mapping :
    getGitChangeType ("removed") = .DELETE ∧
    getGitChangeType ("added") = .ADD ∧
    getGitChangeType ("renamed") = .RENAME ∧
    getGitChangeType ("modified") = .MODIFY ∧
    ∀ s : String, s ≠ "removed" → s ≠ "added" → s ≠ "renamed" → s ≠ "modified" →
      getGitChangeType s = .UNKNOWN := by
  refine ⟨by decide, by decide, by decide, by decide, ?_⟩
  intro s h1 h2 h3 h4
  simp [getGitChangeType, h1, h2, h3, h4]

/-- Witness for C10 at the concrete status string "unknown-label". -/
theorem claim10_witness :
    getGitChangeType ("unknown-label") = .UNKNOWN :=
  claim10_status_mapping.2.2.2.2 ("unknown-label") (by decide) (by decide) (by decide) (by decide)

end DiffHunkTS
